/-
Verification of the worker-pool execution core of the multiprocessing-demo
repository.  Python functions are shallowly embedded as Lean functions:
queues become lists, non-blocking `get(block=False)` becomes an `Option`-valued
pop, concurrent workers become a scheduled step relation over an explicit pool
state, and floating-point arithmetic is read as exact rational arithmetic.
-/
import Mathlib

namespace MpDemo

/-! ## MultiprocessingDemonstrationPool.py : ComputePi and ComputePiVectorised -/

/-- Embedding of `ComputePi(N, ID)` (MultiprocessingDemonstrationPool.py):
the loop `for n in range(0,N): Sum += 4*(-1)**n/(2*n+1)`, read in exact
rational arithmetic.  Returns the pair `(ID, Sum)`. -/
def ComputePi (N : ℕ) (ID : ℕ) : ℕ × ℚ :=
  (ID, (List.range N).foldl (fun (S : ℚ) (n : ℕ) => S + 4 * (-1) ^ n / (2 * (n : ℚ) + 1)) 0)

/-- Embedding of `ComputePiVectorised(N, ID)`: `RangeOfn = linspace(0,N-1,N)`
is the list `[0,…,N-1]` (exact for every `N ≥ 1`), `Summands = (-1)**RangeOfn
/(2*RangeOfn+1)` elementwise, and `Sum = 4*np.sum(Summands)`. -/
def ComputePiVectorised (N : ℕ) (ID : ℕ) : ℕ × ℚ :=
  (ID, 4 * ((List.range N).map (fun (n : ℕ) => (-1 : ℚ) ^ n / (2 * (n : ℚ) + 1))).sum)

/-- Modelled from the spec's description of the intended value: the N-th
partial sum of the Madhava–Leibniz series, `S = Σ_{n=0}^{N-1} 4*(-1)^n/(2n+1)`.
Used as the common reference point of the refinement claim. -/
def madhavaPartialSum (N : ℕ) : ℚ :=
  ((List.range N).map (fun (n : ℕ) => 4 * (-1 : ℚ) ^ n / (2 * (n : ℚ) + 1))).sum

theorem foldl_add_eq_sum (g : ℕ → ℚ) (l : List ℕ) (S : ℚ) :
    l.foldl (fun acc n => acc + g n) S = S + (l.map g).sum := by
  induction l generalizing S with
  | nil => simp
  | cons x xs ih => simp [ih, add_assoc]

/-- C9: for every `N ≥ 1` and every `ID`, `ComputePiVectorised N ID` agrees
with `ComputePi N ID` under exact real arithmetic, and both return
`(ID, S)` where `S` is the N-th Madhava–Leibniz partial sum. -/
theorem computePiVectorised_eq_computePi (N ID : ℕ) (_hN : 1 ≤ N) :
    ComputePiVectorised N ID = ComputePi N ID ∧
      ComputePi N ID = (ID, madhavaPartialSum N) := by
  have hsum : ∀ M : ℕ,
      4 * ((List.range M).map (fun (n : ℕ) => (-1 : ℚ) ^ n / (2 * (n : ℚ) + 1))).sum =
        madhavaPartialSum M := by
    intro M
    unfold madhavaPartialSum
    induction M with
    | zero => simp
    | succ m ih =>
        rw [List.range_succ]
        simp only [List.map_append, List.sum_append, List.map_cons,
          List.sum_cons, List.map_nil, List.sum_nil, mul_add]
        rw [ih]
        ring
  constructor
  · unfold ComputePiVectorised ComputePi
    rw [foldl_add_eq_sum, hsum]
    unfold madhavaPartialSum
    simp
  · unfold ComputePi
    rw [foldl_add_eq_sum]
    unfold madhavaPartialSum
    simp

theorem computePiVectorised_eq_computePi_witness :
    ComputePiVectorised 3 7 = ComputePi 3 7 ∧
      ComputePi 3 7 = (7, madhavaPartialSum 3) :=
  computePiVectorised_eq_computePi 3 7 (by decide)

/-! ## Direct-submit mode (`UsePool` in MultiprocessingDemonstrationBenchmarking.py)

`Results = [MyPool.apply_async(f, args=[p, i]) for ...]` builds the list of
futures in submission order and `Output = [r.get() for r in Results]` resolves
them in that same list order, so the mode is embedded as a map over the
submission list. -/

/-- Embedding of the direct-submit mode: submit each `(payload, id)` pair to
`f` and collect the resolved results in submission order. -/
def directSubmit {π ι ρ : Type} (f : π → ι → ρ) (subs : List (π × ι)) : List ρ :=
  subs.map (fun a => f a.1 a.2)

/-- C2: in direct-submit mode the result at index `k` carries the id of the
submission at index `k` (for any id-preserving task function, mirroring
`CPUHeavyFunction(W, ID) = (ID, value)`), and the concrete scenario with ids
1..5 and `compute(payload) = payload * payload` returns exactly
`[(1,1),(2,4),(3,9),(4,16),(5,25)]`. -/
theorem directSubmit_preserves_submission_order :
    (∀ (π ρ : Type) (compute : π → ρ) (subs : List (π × ℕ)) (k : ℕ),
        ((directSubmit (fun p i => (i, compute p)) subs).get? k).map Prod.fst =
          (subs.get? k).map Prod.snd) ∧
      directSubmit (fun (p i : ℕ) => (i, p * p))
          [(1, 1), (2, 2), (3, 3), (4, 4), (5, 5)] =
        [(1, 1), (2, 4), (3, 9), (4, 16), (5, 25)] := by
  constructor
  · intro π ρ compute subs k
    simp [directSubmit, List.get?_map, Option.map_map]
    rfl
  · rfl

/-! ## ResultSink drain (`Results = [Queue.get() for t in range(N)]`)

The unguarded `get()` loop of the source: each `get` takes the next deposit
in arrival order; a `get` issued when no further deposit will ever arrive
blocks forever, modelled as `none`. -/

/-- Embedding of `drain(expectedCount)` over the complete arrival-ordered
sequence of deposits: `none` means the loop blocks forever. -/
def drainRun {R : Type} : ℕ → List R → Option (List R)
  | 0, _ => some []
  | _ + 1, [] => none
  | n + 1, d :: ds => (drainRun n ds).map (fun l => d :: l)

/-- C4: `drain(expectedCount)` returns only when at least `expectedCount`
results were deposited, and then returns exactly the first `expectedCount`
deposits in arrival order; with fewer deposits it blocks forever (`none`). -/
theorem drainRun_blocks_until_expected (R : Type) (n : ℕ) (deposits : List R) :
    (∀ l, drainRun n deposits = some l →
        n ≤ deposits.length ∧ l.length = n ∧ l = deposits.take n) ∧
      (deposits.length < n → drainRun n deposits = none) := by
  induction n generalizing deposits with
  | zero =>
      refine ⟨fun l hl => ?_, fun h => absurd h (by omega)⟩
      simp only [drainRun, Option.some.injEq] at hl
      simp [← hl]
  | succ m ih =>
      cases deposits with
      | nil =>
          refine ⟨fun l hl => ?_, fun _ => rfl⟩
          simp [drainRun] at hl
      | cons d ds =>
          constructor
          · intro l hl
            simp only [drainRun, Option.map_eq_some'] at hl
            obtain ⟨t, ht, rfl⟩ := hl
            obtain ⟨h1, h2, h3⟩ := (ih ds).1 t ht
            subst h3
            refine ⟨Nat.succ_le_succ h1, ?_, ?_⟩
            · simp [h2]
            · simp [List.take_succ_cons]
          · intro h
            simp only [drainRun, Option.map_eq_none']
            exact (ih ds).2 (by simpa using h)

theorem drainRun_blocks_until_expected_witness :
    (2 ≤ ([10, 20, 30] : List ℕ).length ∧
        ([10, 20] : List ℕ).length = 2 ∧
          ([10, 20] : List ℕ) = ([10, 20, 30] : List ℕ).take 2) ∧
      drainRun 4 ([10, 20, 30] : List ℕ) = none :=
  ⟨(drainRun_blocks_until_expected ℕ 2 [10, 20, 30]).1 [10, 20] rfl,
    (drainRun_blocks_until_expected ℕ 4 [10, 20, 30]).2 (by decide)⟩

/-! ## NestedPoolCoordinator reduction (MultiprocessingDemonstrationNestingProcessAndPool.py)

`Sum = int(np.sum(ListOfSums)/(0.5*NumberOfSubtasksInOneTask*RandomWeight))`,
read in exact rational arithmetic; Python `int()` truncates toward zero. -/

/-- Python `int()` applied to a rational: truncation toward zero. -/
def pyInt (q : ℚ) : ℤ :=
  if 0 ≤ q then ⌊q⌋ else ⌈q⌉

/-- Embedding of the reduction on line 55 of
MultiprocessingDemonstrationNestingProcessAndPool.py:
`int(np.sum(ListOfSums)/(0.5*NumberOfSubtasksInOneTask*RandomWeight))`. -/
def reduceInnerSums (ListOfSums : List ℚ) (NumberOfSubtasksInOneTask : ℕ)
    (RandomWeight : ℤ) : ℤ :=
  pyInt (ListOfSums.sum / ((1 / 2 : ℚ) * NumberOfSubtasksInOneTask * RandomWeight))

/-- C6 counterexample: with `K = 8` inner results all equal to the constant
`c = 8` and `RandomWeight = 1`, the reduction returns `16`, which differs from
`c` by `8` — far outside any floating-point tolerance of `c`. -/
theorem reduceInnerSums_const_not_c :
    reduceInnerSums (List.replicate 8 (8 : ℚ)) 8 1 = 16 ∧
      ¬(|(reduceInnerSums (List.replicate 8 (8 : ℚ)) 8 1 : ℚ) - 8| ≤ 1) := by
  have hq : ((List.replicate 8 (8 : ℚ)).sum /
      ((1 / 2 : ℚ) * (8 : ℕ) * (1 : ℤ))) = 16 := by
    norm_num [List.sum_replicate]
  have h : reduceInnerSums (List.replicate 8 (8 : ℚ)) 8 1 = 16 := by
    unfold reduceInnerSums pyInt
    rw [hq]
    norm_num
  refine ⟨h, ?_⟩
  rw [h]
  norm_num

/-- C6 amended: for every `K ≥ 1` and nonzero `RandomWeight`, the reduction of
`K` inner results all equal to the constant `c` returns `int(2*c/RandomWeight)`
— within tolerance of `c` only when `RandomWeight = 2`, not in general. -/
theorem reduceInnerSums_replicate_const (K : ℕ) (hK : 1 ≤ K) (W : ℤ) (hW : W ≠ 0)
    (c : ℚ) :
    reduceInnerSums (List.replicate K c) K W = pyInt (2 * c / W) := by
  unfold reduceInnerSums
  congr 1
  have hKQ : (K : ℚ) ≠ 0 := by
    exact_mod_cast Nat.one_le_iff_ne_zero.mp hK
  have hWQ : (W : ℚ) ≠ 0 := Int.cast_ne_zero.mpr hW
  rw [List.sum_replicate]
  rw [nsmul_eq_mul]
  field_simp
  ring

theorem reduceInnerSums_replicate_const_witness :
    reduceInnerSums (List.replicate 8 (5 : ℚ)) 8 2 = pyInt (2 * 5 / 2) :=
  reduceInnerSums_replicate_const 8 (by decide) 2 (by decide) 5

/-! ## Shared-queue mode (`UseProcess` / `UsingQueues`, and Case 4 of
MultiprocessingDemonstrationProcess.py)

The caller pre-populates an input queue and starts `NumberOfWorkers` workers;
each worker loops `InputQueue.get(block=False)` → compute → `OutputQueue.put`
and terminates on the `Empty` signal.  Concurrency is embedded as a scheduled
interleaving: a schedule is a list of worker indices, and at each step the
chosen worker performs one whole loop iteration (the queue `get` is atomic in
`multiprocessing.Queue`, so iteration-level granularity preserves which items
each worker consumes and what reaches the sink). -/

/-- Non-blocking pop, `InputQueue.get(block=False)`: returns the front item
and the remaining queue, or the `Empty` signal (`none`) — never blocks. -/
def tryPop {α : Type} (q : List α) : Option (α × List α) :=
  match q with
  | [] => none
  | x :: xs => some (x, xs)

/-- One worker of the shared-queue pool: whether its loop is still running,
and the items it has successfully popped, in pop order. -/
structure WorkerSt (α : Type) where
  active : Bool
  popped : List α
deriving DecidableEq

/-- Global state of a shared-queue pool run: the input queue, the result sink
(arrival order) and the workers. -/
structure PoolSt (α β : Type) where
  queue : List α
  sink : List β
  workers : List (WorkerSt α)
deriving DecidableEq

/-- One loop iteration of worker `i` (`UsingQueues` /
`JobToSumRandomNumbersRepeatedly` body): `tryPop`; on `Empty` the worker
terminates; otherwise it executes `f` on the popped item and puts the result
into the sink.  A step of a terminated or nonexistent worker is a no-op. -/
def step {α β : Type} (f : α → β) (s : PoolSt α β) (i : ℕ) : PoolSt α β :=
  match s.workers.get? i with
  | none => s
  | some w =>
    if w.active then
      match tryPop s.queue with
      | none => { s with workers := s.workers.set i { w with active := false } }
      | some (x, q) =>
          { queue := q, sink := s.sink ++ [f x],
            workers := s.workers.set i { w with popped := w.popped ++ [x] } }
    else s

/-- A full interleaved run under a schedule of worker indices. -/
def runPool {α β : Type} (f : α → β) (s : PoolSt α β) (sched : List ℕ) : PoolSt α β :=
  sched.foldl (step f) s

/-- Initial state of `UseProcess`: the queue holds the submitted tasks, the
sink is empty, and all `W` workers are started with nothing popped yet. -/
def initPool (α β : Type) (tasks : List α) (W : ℕ) : PoolSt α β :=
  ⟨tasks, [], List.replicate W ⟨true, []⟩⟩

/-- Multiset of all items popped so far, across all workers. -/
def poppedMS {α : Type} (ws : List (WorkerSt α)) : Multiset α :=
  (ws.map (fun w => (w.popped : Multiset α))).sum

theorem sum_map_set {α W : Type} (g : W → Multiset α) :
    ∀ (ws : List W) (i : ℕ) (w w' : W), ws.get? i = some w →
      ((ws.set i w').map g).sum + g w = (ws.map g).sum + g w' := by
  intro ws
  induction ws with
  | nil => intro i w w' h; simp at h
  | cons hd tl ih =>
      intro i w w' h
      cases i with
      | zero =>
          simp only [List.get?] at h
          cases h
          simp [List.set]
          abel
      | succ j =>
          simp only [List.get?] at h
          have := ih j w w' h
          simp only [List.set, List.map_cons, List.sum_cons]
          rw [add_assoc, this]
          abel

/-- The run invariant of the shared-queue pool: no item is lost or duplicated
(queue plus total popped is the submitted multiset), the sink holds exactly
one result per popped item, and a worker can only have terminated when the
queue was observed empty (so the queue is empty from then on). -/
def PoolInv {α β : Type} (f : α → β) (tasks : Multiset α) (s : PoolSt α β) : Prop :=
  (↑s.queue + poppedMS s.workers = tasks) ∧
    ((↑s.sink : Multiset β) = (poppedMS s.workers).map f) ∧
    ((∃ w ∈ s.workers, w.active = false) → s.queue = [])

theorem runPool_cons {α β : Type} (f : α → β) (s : PoolSt α β) (i : ℕ)
    (rest : List ℕ) : runPool f s (i :: rest) = runPool f (step f s i) rest :=
  rfl

theorem step_of_get_none {α β : Type} (f : α → β) (s : PoolSt α β) (i : ℕ)
    (h : s.workers.get? i = none) : step f s i = s := by
  unfold step
  rw [h]

theorem step_of_inactive {α β : Type} (f : α → β) (s : PoolSt α β) (i : ℕ)
    (w : WorkerSt α) (h : s.workers.get? i = some w) (ha : w.active = false) :
    step f s i = s := by
  unfold step
  rw [h]
  simp [ha]

theorem step_of_empty {α β : Type} (f : α → β) (s : PoolSt α β) (i : ℕ)
    (w : WorkerSt α) (h : s.workers.get? i = some w) (ha : w.active = true)
    (hq : s.queue = []) :
    step f s i = { s with workers := s.workers.set i { w with active := false } } := by
  unfold step
  rw [h]
  simp [ha, hq, tryPop]

theorem step_of_pop {α β : Type} (f : α → β) (s : PoolSt α β) (i : ℕ)
    (w : WorkerSt α) (x : α) (q : List α) (h : s.workers.get? i = some w)
    (ha : w.active = true) (hq : s.queue = x :: q) :
    step f s i = { queue := q, sink := s.sink ++ [f x],
                   workers := s.workers.set i { w with popped := w.popped ++ [x] } } := by
  unfold step
  rw [h]
  simp [ha, hq, tryPop]

theorem poppedMS_set_same {α : Type} (ws : List (WorkerSt α)) (i : ℕ)
    (w w' : WorkerSt α) (h : ws.get? i = some w) (hp : w'.popped = w.popped) :
    poppedMS (ws.set i w') = poppedMS ws := by
  have := sum_map_set (fun w => (w.popped : Multiset α)) ws i w w' h
  simp only [hp] at this
  exact add_right_cancel this

theorem poppedMS_set_push {α : Type} (ws : List (WorkerSt α)) (i : ℕ)
    (w w' : WorkerSt α) (x : α) (h : ws.get? i = some w)
    (hp : w'.popped = w.popped ++ [x]) :
    poppedMS (ws.set i w') = poppedMS ws + {x} := by
  have := sum_map_set (fun w => (w.popped : Multiset α)) ws i w w' h
  simp only [hp] at this
  have hco : ((w.popped ++ [x] : List α) : Multiset α) =
      ({x} : Multiset α) + (w.popped : Multiset α) := by
    have hperm : ((w.popped ++ [x] : List α) : Multiset α) =
        (([x] ++ w.popped : List α) : Multiset α) :=
      Multiset.coe_eq_coe.mpr List.perm_append_comm
    rw [hperm, ← Multiset.coe_add, Multiset.coe_singleton]
  rw [hco, ← add_assoc] at this
  exact add_right_cancel this

theorem step_preserves_inv {α β : Type} (f : α → β) (tasks : Multiset α)
    (s : PoolSt α β) (i : ℕ) (h : PoolInv f tasks s) :
    PoolInv f tasks (step f s i) := by
  obtain ⟨h1, h2, h3⟩ := h
  cases hget : s.workers.get? i with
  | none => rw [step_of_get_none f s i hget]; exact ⟨h1, h2, h3⟩
  | some w =>
      cases hact : w.active with
      | false => rw [step_of_inactive f s i w hget hact]; exact ⟨h1, h2, h3⟩
      | true =>
          cases hq : s.queue with
          | nil =>
              rw [step_of_empty f s i w hget hact hq]
              have hpop : poppedMS (s.workers.set i { w with active := false }) =
                  poppedMS s.workers :=
                poppedMS_set_same s.workers i w _ hget rfl
              refine ⟨?_, ?_, fun _ => hq⟩
              · show (↑s.queue + poppedMS (s.workers.set i { w with active := false })
                    : Multiset α) = tasks
                rw [hpop]; exact h1
              · show (↑s.sink : Multiset β) =
                  (poppedMS (s.workers.set i { w with active := false })).map f
                rw [hpop]; exact h2
          | cons x q =>
              rw [step_of_pop f s i w x q hget hact hq]
              have hpop : poppedMS (s.workers.set i { w with popped := w.popped ++ [x] }) =
                  poppedMS s.workers + {x} :=
                poppedMS_set_push s.workers i w _ x hget rfl
              refine ⟨?_, ?_, ?_⟩
              · show (↑q + poppedMS (s.workers.set i { w with popped := w.popped ++ [x] })
                    : Multiset α) = tasks
                rw [hpop, ← h1, hq]
                have hcons : ((x :: q : List α) : Multiset α) = {x} + ↑q := by
                  rw [← Multiset.cons_coe, ← Multiset.singleton_add]
                rw [hcons]
                abel
              · show ((s.sink ++ [f x] : List β) : Multiset β) =
                  (poppedMS (s.workers.set i { w with popped := w.popped ++ [x] })).map f
                rw [hpop, ← Multiset.coe_add, Multiset.map_add, h2]
                simp
              · intro hex
                obtain ⟨w2, hw2mem, hw2⟩ := hex
                exfalso
                rcases List.mem_or_eq_of_mem_set hw2mem with hmem | heq
                · have := h3 ⟨w2, hmem, hw2⟩
                  rw [hq] at this
                  exact List.noConfusion this
                · rw [heq] at hw2
                  simp only at hw2
                  rw [hact] at hw2
                  exact Bool.noConfusion hw2

theorem runPool_inv {α β : Type} (f : α → β) (tasks : Multiset α)
    (s : PoolSt α β) (sched : List ℕ) (h : PoolInv f tasks s) :
    PoolInv f tasks (runPool f s sched) := by
  induction sched generalizing s with
  | nil => exact h
  | cons i rest ih => exact ih (step f s i) (step_preserves_inv f tasks s i h)

theorem step_workers_length {α β : Type} (f : α → β) (s : PoolSt α β) (i : ℕ) :
    (step f s i).workers.length = s.workers.length := by
  cases hget : s.workers.get? i with
  | none => rw [step_of_get_none f s i hget]
  | some w =>
      cases hact : w.active with
      | false => rw [step_of_inactive f s i w hget hact]
      | true =>
          cases hq : s.queue with
          | nil => rw [step_of_empty f s i w hget hact hq]; simp
          | cons x q => rw [step_of_pop f s i w x q hget hact hq]; simp

theorem runPool_workers_length {α β : Type} (f : α → β) (s : PoolSt α β)
    (sched : List ℕ) :
    (runPool f s sched).workers.length = s.workers.length := by
  induction sched generalizing s with
  | nil => rfl
  | cons i rest ih =>
      rw [runPool_cons]
      rw [ih (step f s i), step_workers_length]

theorem tryPop_eq_none_iff {α : Type} (q : List α) : tryPop q = none ↔ q = [] := by
  cases q <;> simp [tryPop]

theorem tryPop_eq_some_iff {α : Type} (q r : List α) (x : α) :
    tryPop q = some (x, r) ↔ q = x :: r := by
  cases q <;> simp [tryPop, And.comm]

theorem drainRun_full {R : Type} (l : List R) : drainRun l.length l = some l := by
  induction l with
  | nil => rfl
  | cons d ds ih => simp [List.length_cons, drainRun, ih]

theorem card_poppedMS {α : Type} (ws : List (WorkerSt α)) :
    Multiset.card (poppedMS ws) = (ws.map (fun w => w.popped.length)).sum := by
  induction ws with
  | nil => rfl
  | cons w tl ih =>
      simp only [poppedMS, List.map_cons, List.sum_cons, Multiset.card_add,
        Multiset.coe_card] at ih ⊢
      rw [ih]

theorem initPool_inv {α β : Type} (f : α → β) (tasks : List α) (W : ℕ) :
    PoolInv f (↑tasks) (initPool α β tasks W) := by
  refine ⟨?_, ?_, ?_⟩
  · show (↑tasks + poppedMS (List.replicate W ⟨true, []⟩) : Multiset α) = ↑tasks
    simp [poppedMS, List.map_replicate, List.sum_replicate]
  · show ((([] : List β)) : Multiset β) = (poppedMS (List.replicate W ⟨true, []⟩)).map f
    simp [poppedMS, List.map_replicate, List.sum_replicate]
  · rintro ⟨w, hmem, hw⟩
    have := List.eq_of_mem_replicate hmem
    rw [this] at hw
    exact absurd hw (by simp)

/-- C1: shared-queue mode completeness — for any submitted task list, any
worker count `W ≥ 1` and any interleaving under which every worker has
terminated, the sink holds exactly `N = tasks.length` results, the multiset of
result ids equals the multiset of submitted task ids, and `drain(N)` returns
exactly those `N` results. -/
theorem sharedQueue_completeness (α ι ρ : Type) (taskId : α → ι) (val : α → ρ)
    (tasks : List α) (W : ℕ) (sched : List ℕ) (hW : 0 < W)
    (hdone : ∀ w ∈ (runPool (fun t => (taskId t, val t))
        (initPool α (ι × ρ) tasks W) sched).workers, w.active = false) :
    (runPool (fun t => (taskId t, val t)) (initPool α (ι × ρ) tasks W) sched).sink.length
        = tasks.length ∧
      ((((runPool (fun t => (taskId t, val t)) (initPool α (ι × ρ) tasks W) sched).sink.map
            Prod.fst : List ι)) : Multiset ι) = ↑(tasks.map taskId) ∧
      drainRun tasks.length
          (runPool (fun t => (taskId t, val t)) (initPool α (ι × ρ) tasks W) sched).sink =
        some (runPool (fun t => (taskId t, val t)) (initPool α (ι × ρ) tasks W) sched).sink := by
  set f : α → ι × ρ := fun t => (taskId t, val t) with hf
  set F := runPool f (initPool α (ι × ρ) tasks W) sched with hF
  have hinv : PoolInv f (↑tasks) F := runPool_inv f _ _ sched (initPool_inv f tasks W)
  obtain ⟨h1, h2, h3⟩ := hinv
  have hlen : F.workers.length = W := by
    rw [hF, runPool_workers_length]
    simp [initPool]
  have hq : F.queue = [] := by
    obtain ⟨w, hw⟩ := List.exists_mem_of_length_pos (l := F.workers) (by rw [hlen]; exact hW)
    exact h3 ⟨w, hw, hdone w hw⟩
  have hpop : poppedMS F.workers = ↑tasks := by
    rw [hq] at h1
    simpa using h1
  have hsink : (↑F.sink : Multiset (ι × ρ)) = ↑(tasks.map f) := by
    rw [h2, hpop, Multiset.map_coe]
  have hslen : F.sink.length = tasks.length := by
    have := Multiset.coe_eq_coe.mp hsink
    rw [this.length_eq, List.length_map]
  refine ⟨hslen, ?_, ?_⟩
  · have hperm : F.sink.Perm (tasks.map f) := Multiset.coe_eq_coe.mp hsink
    have hperm2 : (F.sink.map Prod.fst).Perm ((tasks.map f).map Prod.fst) :=
      hperm.map Prod.fst
    have hmm : (tasks.map f).map Prod.fst = tasks.map taskId := by
      rw [List.map_map]
      rfl
    rw [hmm] at hperm2
    exact Multiset.coe_eq_coe.mpr hperm2
  · rw [← hslen]
    exact drainRun_full F.sink

theorem sharedQueue_completeness_witness :
    (runPool (fun t : ℕ × ℕ => (Prod.snd t, Prod.fst t))
        (initPool (ℕ × ℕ) (ℕ × ℕ) [(5, 1), (7, 2)] 1) [0, 0, 0]).sink.length
        = ([(5, 1), (7, 2)] : List (ℕ × ℕ)).length ∧
      ((((runPool (fun t : ℕ × ℕ => (Prod.snd t, Prod.fst t))
            (initPool (ℕ × ℕ) (ℕ × ℕ) [(5, 1), (7, 2)] 1) [0, 0, 0]).sink.map
              Prod.fst : List ℕ)) : Multiset ℕ) =
        ↑(([(5, 1), (7, 2)] : List (ℕ × ℕ)).map Prod.snd) ∧
      drainRun ([(5, 1), (7, 2)] : List (ℕ × ℕ)).length
          (runPool (fun t : ℕ × ℕ => (Prod.snd t, Prod.fst t))
            (initPool (ℕ × ℕ) (ℕ × ℕ) [(5, 1), (7, 2)] 1) [0, 0, 0]).sink =
        some (runPool (fun t : ℕ × ℕ => (Prod.snd t, Prod.fst t))
            (initPool (ℕ × ℕ) (ℕ × ℕ) [(5, 1), (7, 2)] 1) [0, 0, 0]).sink :=
  sharedQueue_completeness (ℕ × ℕ) ℕ ℕ Prod.snd Prod.fst [(5, 1), (7, 2)] 1 [0, 0, 0]
    (by decide) (by decide)

/-- C3: `tryPop` is a total function that returns the `Empty` control signal
exactly when the queue has no item (never blocking); a running worker's step
terminates the worker precisely when `tryPop` returns `Empty`; and every
successfully popped item produces exactly one computed result `put` into the
sink — globally, the sink length always equals the total number of successful
pops. -/
theorem tryPop_nonblocking_worker_protocol :
    (∀ (α : Type) (q : List α), tryPop q = none ↔ q = []) ∧
      (∀ (α β : Type) (f : α → β) (s : PoolSt α β) (i : ℕ) (w : WorkerSt α),
          s.workers.get? i = some w → w.active = true →
          ((((step f s i).workers.get? i).map WorkerSt.active = some false) ↔
              tryPop s.queue = none) ∧
            (∀ (x : α) (q : List α), tryPop s.queue = some (x, q) →
                step f s i = { queue := q, sink := s.sink ++ [f x],
                               workers := s.workers.set i
                                 { w with popped := w.popped ++ [x] } })) ∧
      (∀ (α β : Type) (f : α → β) (tasks : List α) (W : ℕ) (sched : List ℕ),
          (runPool f (initPool α β tasks W) sched).sink.length =
            ((runPool f (initPool α β tasks W) sched).workers.map
              (fun w => w.popped.length)).sum) := by
  refine ⟨fun α q => tryPop_eq_none_iff q, ?_, ?_⟩
  · intro α β f s i w hget hact
    refine ⟨⟨?_, ?_⟩, ?_⟩
    · intro hfalse
      cases hq : tryPop s.queue with
      | none => rfl
      | some xq =>
          obtain ⟨x, q⟩ := xq
          have hqeq : s.queue = x :: q := (tryPop_eq_some_iff _ _ _).mp hq
          rw [step_of_pop f s i w x q hget hact hqeq] at hfalse
          exfalso
          have hfalse2 : ((s.workers.set i { w with popped := w.popped ++ [x] }).get? i).map
              WorkerSt.active = some false := hfalse
          rw [List.get?_set_eq, hget] at hfalse2
          simp [hact] at hfalse2
    · intro hq
      have hqeq : s.queue = [] := (tryPop_eq_none_iff _).mp hq
      rw [step_of_empty f s i w hget hact hqeq]
      show ((s.workers.set i { w with active := false }).get? i).map
          WorkerSt.active = some false
      rw [List.get?_set_eq, hget]
      rfl
    · intro x q hq
      exact step_of_pop f s i w x q hget hact ((tryPop_eq_some_iff _ _ _).mp hq)
  · intro α β f tasks W sched
    obtain ⟨_, h2, _⟩ := runPool_inv f (↑tasks) (initPool α β tasks W) sched
      (initPool_inv f tasks W)
    have : Multiset.card (↑(runPool f (initPool α β tasks W) sched).sink : Multiset β) =
        Multiset.card ((poppedMS (runPool f (initPool α β tasks W) sched).workers).map f) := by
      rw [h2]
    rw [Multiset.coe_card, Multiset.card_map, card_poppedMS] at this
    exact this

theorem tryPop_nonblocking_worker_protocol_witness :
    (tryPop ([] : List ℕ) = none ↔ ([] : List ℕ) = []) ∧
      step (fun x : ℕ => x + 1) (initPool ℕ ℕ [4] 1) 0 =
        { queue := [], sink := [5], workers := [⟨true, [4]⟩] } ∧
      (runPool (fun x : ℕ => x + 1) (initPool ℕ ℕ [4, 6] 1) [0, 0, 0]).sink.length =
        ((runPool (fun x : ℕ => x + 1) (initPool ℕ ℕ [4, 6] 1) [0, 0, 0]).workers.map
          (fun w => w.popped.length)).sum :=
  ⟨tryPop_nonblocking_worker_protocol.1 ℕ [],
    (tryPop_nonblocking_worker_protocol.2.1 ℕ ℕ (fun x => x + 1) (initPool ℕ ℕ [4] 1) 0
        ⟨true, []⟩ rfl rfl).2 4 [] rfl,
    tryPop_nonblocking_worker_protocol.2.2 ℕ ℕ (fun x => x + 1) [4, 6] 1 [0, 0, 0]⟩

/-- C5: the concrete no-double-consumption scenario — items `[1,2,3]` pushed,
2 workers popping until `Empty`: for every interleaving under which both
workers have terminated, exactly 3 successful pops occurred in total across
the two workers, and every item was popped by exactly one worker. -/
theorem no_double_consumption (sched : List ℕ)
    (hdone : ∀ w ∈ (runPool (fun x => x) (initPool ℕ ℕ [1, 2, 3] 2) sched).workers,
        w.active = false) :
    ∃ w0 w1,
      (runPool (fun x => x) (initPool ℕ ℕ [1, 2, 3] 2) sched).workers = [w0, w1] ∧
        (w0.popped ++ w1.popped).Perm [1, 2, 3] ∧
        w0.popped.length + w1.popped.length = 3 ∧
        ∀ x ∈ ([1, 2, 3] : List ℕ), w0.popped.count x + w1.popped.count x = 1 := by
  set F := runPool (fun x => x) (initPool ℕ ℕ [1, 2, 3] 2) sched with hF
  have hlen : F.workers.length = 2 := by
    rw [hF, runPool_workers_length]
    simp [initPool]
  obtain ⟨w0, w1, hws⟩ : ∃ w0 w1, F.workers = [w0, w1] := List.length_eq_two.mp hlen
  obtain ⟨h1, _, h3⟩ := runPool_inv (fun x => x) (↑([1, 2, 3] : List ℕ))
    (initPool ℕ ℕ [1, 2, 3] 2) sched (initPool_inv _ _ _)
  rw [← hF] at h1 h3
  have hq : F.queue = [] := by
    refine h3 ⟨w0, ?_, hdone w0 ?_⟩ <;> rw [hws] <;> exact List.mem_cons_self _ _
  have hpop : poppedMS F.workers = ↑([1, 2, 3] : List ℕ) := by
    rw [hq] at h1
    simpa using h1
  have hco : poppedMS F.workers = ↑(w0.popped ++ w1.popped) := by
    rw [hws]
    show (↑w0.popped + (↑w1.popped + 0) : Multiset ℕ) = ↑(w0.popped ++ w1.popped)
    rw [add_zero, Multiset.coe_add]
  have hperm : (w0.popped ++ w1.popped).Perm [1, 2, 3] := by
    rw [hco] at hpop
    exact Multiset.coe_eq_coe.mp hpop
  refine ⟨w0, w1, hws, hperm, ?_, ?_⟩
  · have := hperm.length_eq
    rw [List.length_append] at this
    simpa using this
  · intro x hx
    have hc := hperm.count_eq x
    rw [List.count_append] at hc
    rw [hc]
    simp only [List.mem_cons, List.not_mem_nil, or_false] at hx
    rcases hx with h | h | h <;> subst h <;> decide

theorem no_double_consumption_witness :
    ∃ w0 w1,
      (runPool (fun x => x) (initPool ℕ ℕ [1, 2, 3] 2) [0, 1, 0, 0, 1]).workers = [w0, w1] ∧
        (w0.popped ++ w1.popped).Perm [1, 2, 3] ∧
        w0.popped.length + w1.popped.length = 3 ∧
        ∀ x ∈ ([1, 2, 3] : List ℕ), w0.popped.count x + w1.popped.count x = 1 :=
  no_double_consumption [0, 1, 0, 0, 1] (by decide)

/-! ## NestedPoolCoordinator worker (`JobToPerformTasks`)

One outer worker sequentially pops outer items until `Empty`; for each item it
derives the inner sub-task list, runs a fresh inner pool in direct-submit
mode to completion, joins it, reduces, and emits `(NumbersToAdd, Sum)`.  The
per-iteration random draws (`RandomWeight`, the random sums computed by
`SumRandomNumbers`) are supplied as oracles indexed by the iteration. -/

/-- The inner sub-task list of one outer iteration:
`[apply_async(SumRandomNumbers, args=[WeightedNumbersToAdd, ProcessID, SubtaskNumber+1])
for SubtaskNumber in range(NumberOfSubtasksInOneTask)]` — the identical payload
replicated, tagged with the distinct sub-index `SubtaskNumber+1`. -/
def deriveSubtasks (WeightedNumbersToAdd : ℤ) (K : ℕ) : List (ℤ × ℕ) :=
  (List.range K).map (fun SubtaskNumber => (WeightedNumbersToAdd, SubtaskNumber + 1))

/-- The fresh inner pool run in direct-submit mode:
`ListOfSums = [r.get() for r in Result]`, in submission order; the inner
compute (`SumRandomNumbers`) is the oracle `g payload subIndex`. -/
def innerPoolRun (g : ℤ → ℕ → ℚ) (subs : List (ℤ × ℕ)) : List ℚ :=
  subs.map (fun t => g t.1 t.2)

/-- One iteration of `JobToPerformTasks`' try-block: weight the popped input,
derive the sub-tasks, run and join the inner pool, reduce, and emit
`(NumbersToAdd, Sum)` into the output queue. -/
def processOuterItem (K : ℕ) (g : ℤ → ℕ → ℚ) (RandomWeight : ℤ)
    (NumbersToAdd : ℚ) : ℚ × ℤ :=
  let WeightedNumbersToAdd := RandomWeight * pyInt NumbersToAdd
  let ListOfSums := innerPoolRun g (deriveSubtasks WeightedNumbersToAdd K)
  (NumbersToAdd, reduceInnerSums ListOfSums K RandomWeight)

/-- The whole `JobToPerformTasks` loop of one worker on the queue it consumes
(pop → process → put, until `Empty`): the j-th iteration uses the j-th random
weight `ws j` and the j-th inner-sum oracle `g j`. -/
def JobToPerformTasks (K : ℕ) (ws : ℕ → ℤ) (g : ℕ → ℤ → ℕ → ℚ)
    (inputs : List ℚ) : List (ℚ × ℤ) :=
  inputs.enum.map (fun ji => processOuterItem K (g ji.1) (ws ji.1) ji.2)

/-- C7: each outer item popped by a nested worker yields exactly `K` inner
sub-tasks with identical payload and distinct sub-indices `1..K`; the fresh
inner pool is run to completion and reduced within that iteration, and the
worker emits exactly one `(outerTaskId, reducedValue)` pair per popped item,
in pop order — each iteration's output is a pure function of that iteration's
own data, so no inner pool survives into the next iteration. -/
theorem nested_worker_structure (K : ℕ) (ws : ℕ → ℤ) (g : ℕ → ℤ → ℕ → ℚ)
    (inputs : List ℚ) :
    (JobToPerformTasks K ws g inputs).length = inputs.length ∧
      (∀ w : ℤ, (deriveSubtasks w K).length = K ∧
        (∀ t ∈ deriveSubtasks w K, t.1 = w) ∧
        (deriveSubtasks w K).map Prod.snd = (List.range K).map (· + 1) ∧
        ((deriveSubtasks w K).map Prod.snd).Nodup) ∧
      (∀ (j : ℕ) (n : ℚ), inputs.get? j = some n →
          (JobToPerformTasks K ws g inputs).get? j =
            some (n, reduceInnerSums
              (innerPoolRun (g j) (deriveSubtasks (ws j * pyInt n) K)) K (ws j))) := by
  refine ⟨?_, ?_, ?_⟩
  · simp [JobToPerformTasks]
  · intro w
    refine ⟨by simp [deriveSubtasks], ?_, ?_, ?_⟩
    · intro t ht
      simp only [deriveSubtasks, List.mem_map] at ht
      obtain ⟨s, _, rfl⟩ := ht
      rfl
    · simp [deriveSubtasks, List.map_map]
    · have hmap : ((deriveSubtasks w K).map Prod.snd) = (List.range K).map (· + 1) := by
        simp [deriveSubtasks, List.map_map]
      rw [hmap]
      exact List.Nodup.map (fun a b h => by omega) (List.nodup_range K)
  · intro j n hj
    unfold JobToPerformTasks
    rw [List.get?_map, List.get?_enum, hj]
    rfl

theorem nested_worker_structure_witness :
    (JobToPerformTasks 2 (fun _ => 1) (fun _ _ s => (s : ℚ)) [3]).length =
        ([3] : List ℚ).length ∧
      (deriveSubtasks 3 2).length = 2 ∧
      (JobToPerformTasks 2 (fun _ => 1) (fun _ _ s => (s : ℚ)) [3]).get? 0 =
        some (3, reduceInnerSums
          (innerPoolRun (fun _ s => (s : ℚ)) (deriveSubtasks (1 * pyInt 3) 2)) 2 1) :=
  ⟨(nested_worker_structure 2 (fun _ => 1) (fun _ _ s => (s : ℚ)) [3]).1,
    ((nested_worker_structure 2 (fun _ => 1) (fun _ _ s => (s : ℚ)) [3]).2.1 3).1,
    (nested_worker_structure 2 (fun _ => 1) (fun _ _ s => (s : ℚ)) [3]).2.2 0 3 rfl⟩

/-! ## Shared dict-of-dicts (MultiprocessingDemonstrationManagerDictOfDicts.py)

The manager's dictionary maps each key to an interior dictionary; `Worker`
may only mutate it by reading the whole interior dictionary into a temporary,
modifying the temporary, and re-assigning it with `Dict[Key] = TemporaryDict`.
The dictionary is embedded as a function `ℤ → InnerDict` and every assignment
as a whole-entry `Function.update`; the writes an iteration performs are
recorded as a trace of `(key, wholeEntry)` pairs. -/

/-- The interior dictionary `Dict[Key]`: the keys `'Sequence'` and
`'CompFinished'` are present from initialisation, `'P'` and `'Q'` only after
the finishing write (hence `Option`). -/
structure InnerDict where
  Sequence : List ℤ
  CompFinished : Bool
  P : Option ℤ
  Q : Option ℤ
deriving DecidableEq

/-- Python negative indexing `s[-k]`, defaulting to 0 off-range (the source
only evaluates it on sequences of length ≥ 2). -/
def pyGetNeg (s : List ℤ) (k : ℕ) : ℤ :=
  (s.get? (s.length - k)).getD 0

/-- `ComputeNextElementOfLucasSequence(Sequence, P, Q) =
P*Sequence[-1] - Q*Sequence[-2]`. -/
def ComputeNextElementOfLucasSequence (Sequence : List ℤ) (P Q : ℤ) : ℤ :=
  P * pyGetNeg Sequence 1 - Q * pyGetNeg Sequence 2

/-- One iteration of `Worker`'s while-loop body (lines 24–34): copy
`Dict[Key]` into `TemporaryDict`, append the next Lucas element, re-assign the
whole entry; if the finishing criterion fires, repeat the copy-modify-reassign
with `CompFinished`, `P`, `Q` and break.  Returns the new dictionary, the
trace of whole-entry writes performed, and whether the loop broke. -/
def workerIter (Dict : ℤ → InnerDict) (Key P Q : ℤ) :
    (ℤ → InnerDict) × List (ℤ × InnerDict) × Bool :=
  let TemporaryDict := Dict Key
  let T1 : InnerDict := { TemporaryDict with
    Sequence := TemporaryDict.Sequence ++
      [ComputeNextElementOfLucasSequence TemporaryDict.Sequence P Q] }
  let D1 := Function.update Dict Key T1
  if 1000 ≤ pyGetNeg (D1 Key).Sequence 1 then
    let T2 : InnerDict := { D1 Key with CompFinished := true, P := some P, Q := some Q }
    (Function.update D1 Key T2, [(Key, T1), (Key, T2)], true)
  else
    (D1, [(Key, T1)], false)

/-- The `Worker` while-loop with explicit fuel (`none`: did not terminate
within `fuel` iterations). -/
def workerRun (fuel : ℕ) (Dict : ℤ → InnerDict) (Key P Q : ℤ) :
    Option (ℤ → InnerDict) :=
  match fuel with
  | 0 => none
  | f + 1 =>
      if (Dict Key).CompFinished = false then
        let r := workerIter Dict Key P Q
        if r.2.2 then some r.1 else workerRun f r.1 Key P Q
      else some Dict

/-- C8: every mutation `Worker` performs on the shared dict-of-dicts is a
single whole-entry replacement at the worker's own key: in any one loop
iteration all recorded writes target `Key` and carry a whole interior
dictionary, entries at other keys are untouched, the resulting dictionary is
exactly the recorded writes applied in order, and the first write is the
read-copy-append-reassign of the whole temporary. -/
theorem worker_whole_entry_writes (Dict : ℤ → InnerDict) (Key P Q : ℤ) :
    (∀ wr ∈ (workerIter Dict Key P Q).2.1, wr.1 = Key) ∧
      (∀ k, k ≠ Key → (workerIter Dict Key P Q).1 k = Dict k) ∧
      (workerIter Dict Key P Q).1 =
        (workerIter Dict Key P Q).2.1.foldl
          (fun d wr => Function.update d wr.1 wr.2) Dict ∧
      (workerIter Dict Key P Q).2.1.head? =
        some (Key, { Dict Key with
          Sequence := (Dict Key).Sequence ++
            [ComputeNextElementOfLucasSequence (Dict Key).Sequence P Q] }) := by
  unfold workerIter
  by_cases hcrit : 1000 ≤ pyGetNeg ((Function.update Dict Key
      { Dict Key with
        Sequence := (Dict Key).Sequence ++
          [ComputeNextElementOfLucasSequence (Dict Key).Sequence P Q] }) Key).Sequence 1
  · simp only [hcrit, if_true]
    refine ⟨?_, ?_, ?_, rfl⟩
    · intro wr hwr
      simp only [List.mem_cons, List.not_mem_nil, or_false] at hwr
      rcases hwr with h | h <;> subst h <;> rfl
    · intro k hk
      simp [Function.update_noteq hk]
    · simp [List.foldl_cons]
  · simp only [hcrit, if_false]
    refine ⟨?_, ?_, ?_, rfl⟩
    · intro wr hwr
      simp only [List.mem_cons, List.not_mem_nil, or_false] at hwr
      subst hwr
      rfl
    · intro k hk
      simp [Function.update_noteq hk]
    · simp [List.foldl_cons]

theorem worker_whole_entry_writes_witness :
    ((workerIter (fun _ => InnerDict.mk [0, 1] false none none) 1 1 (-1)).1 2 =
        (fun _ : ℤ => InnerDict.mk [0, 1] false none none) 2) ∧
      (workerIter (fun _ => InnerDict.mk [0, 1] false none none) 1 1 (-1)).2.1.head? =
        some (1, { (fun _ : ℤ => InnerDict.mk [0, 1] false none none) 1 with
          Sequence := ((fun _ : ℤ => InnerDict.mk [0, 1] false none none) 1).Sequence ++
            [ComputeNextElementOfLucasSequence
              ((fun _ : ℤ => InnerDict.mk [0, 1] false none none) 1).Sequence 1 (-1)] }) :=
  ⟨(worker_whole_entry_writes (fun _ => InnerDict.mk [0, 1] false none none) 1 1 (-1)).2.1
      2 (by decide),
    (worker_whole_entry_writes (fun _ => InnerDict.mk [0, 1] false none none) 1 1 (-1)).2.2.2⟩

/-! ## Termination of `Worker`'s Lucas-sequence loop -/

/-- The Lucas sequence of the first kind computed by `Worker`:
`a 0 = 0`, `a 1 = 1`, `a (n+2) = P*a(n+1) - Q*a(n)` (each appended element is
`ComputeNextElementOfLucasSequence` of the current list). -/
def lucasSeq (P Q : ℤ) : ℕ → ℤ
  | 0 => 0
  | 1 => 1
  | n + 2 => P * lucasSeq P Q (n + 1) - Q * lucasSeq P Q n

/-- The worker's `Sequence` list after `k` appends: `[a 0, …, a (k+1)]`. -/
def prefList (P Q : ℤ) (k : ℕ) : List ℤ :=
  (List.range (k + 2)).map (lucasSeq P Q)

theorem length_prefList (P Q : ℤ) (k : ℕ) : (prefList P Q k).length = k + 2 := by
  simp [prefList]

theorem pyGetNeg_prefList (P Q : ℤ) (k j : ℕ) (hj1 : 1 ≤ j) (hj2 : j ≤ k + 2) :
    pyGetNeg (prefList P Q k) j = lucasSeq P Q (k + 2 - j) := by
  unfold pyGetNeg
  rw [length_prefList]
  have hlt : k + 2 - j < k + 2 := by omega
  rw [prefList, List.get?_eq_getElem?, List.getElem?_map, List.getElem?_range hlt]
  rfl

theorem next_prefList (P Q : ℤ) (k : ℕ) :
    ComputeNextElementOfLucasSequence (prefList P Q k) P Q = lucasSeq P Q (k + 2) := by
  unfold ComputeNextElementOfLucasSequence
  rw [pyGetNeg_prefList P Q k 1 (by omega) (by omega),
    pyGetNeg_prefList P Q k 2 (by omega) (by omega)]
  have h1 : k + 2 - 1 = k + 1 := rfl
  have h2 : k + 2 - 2 = k := by omega
  rw [h1, h2]
  simp [lucasSeq]

theorem prefList_succ (P Q : ℤ) (k : ℕ) :
    prefList P Q (k + 1) = prefList P Q k ++ [lucasSeq P Q (k + 2)] := by
  unfold prefList
  have h : k + 1 + 2 = (k + 2) + 1 := rfl
  rw [h, List.range_succ, List.map_append]
  rfl

theorem prefList_zero (P Q : ℤ) : prefList P Q 0 = [0, 1] := by
  unfold prefList
  have h : List.range 2 = [0, 1] := rfl
  rw [h]
  simp [lucasSeq]

theorem lucasSeq_ge_one (P Q : ℤ) (hP : 1 ≤ P) (hQ : Q ≤ -1) (n : ℕ) :
    1 ≤ lucasSeq P Q (n + 1) ∧ 0 ≤ lucasSeq P Q n := by
  induction n with
  | zero => exact ⟨le_refl 1, le_refl 0⟩
  | succ m ih =>
      obtain ⟨h1, h0⟩ := ih
      have hidx : m + 1 + 1 = m + 2 := rfl
      rw [hidx]
      have heq : lucasSeq P Q (m + 2) = P * lucasSeq P Q (m + 1) - Q * lucasSeq P Q m := by
        simp [lucasSeq]
      have hPa : 1 * 1 ≤ P * lucasSeq P Q (m + 1) :=
        mul_le_mul hP h1 (by omega) (by omega)
      rw [one_mul] at hPa
      have hQa : 0 ≤ -Q * lucasSeq P Q m := mul_nonneg (by omega) h0
      rw [neg_mul] at hQa
      exact ⟨by rw [heq]; linarith, by linarith⟩

theorem lucasSeq_strict (P Q : ℤ) (hP : 1 ≤ P) (hQ : Q ≤ -1) (n : ℕ) (hn : 2 ≤ n) :
    lucasSeq P Q n + 1 ≤ lucasSeq P Q (n + 1) := by
  obtain ⟨m, rfl⟩ : ∃ m, n = m + 2 := ⟨n - 2, by omega⟩
  obtain ⟨h1, _⟩ := lucasSeq_ge_one P Q hP hQ m
  obtain ⟨h2, _⟩ := lucasSeq_ge_one P Q hP hQ (m + 1)
  have hidx : m + 1 + 1 = m + 2 := rfl
  rw [hidx] at h2
  have hidx2 : m + 2 + 1 = m + 1 + 2 := rfl
  rw [hidx2]
  have heq : lucasSeq P Q (m + 1 + 2) =
      P * lucasSeq P Q (m + 1 + 1) - Q * lucasSeq P Q (m + 1) := by
    simp [lucasSeq]
  rw [hidx] at heq
  rw [heq]
  have p1 : lucasSeq P Q (m + 2) ≤ P * lucasSeq P Q (m + 2) :=
    le_mul_of_one_le_left (by linarith) hP
  have p2 : lucasSeq P Q (m + 1) ≤ -Q * lucasSeq P Q (m + 1) :=
    le_mul_of_one_le_left (by linarith) (by linarith)
  rw [neg_mul] at p2
  linarith

theorem lucasSeq_lower (P Q : ℤ) (hP : 1 ≤ P) (hQ : Q ≤ -1) (m : ℕ) :
    (m : ℤ) + 1 ≤ lucasSeq P Q (m + 2) := by
  induction m with
  | zero =>
      have heq : lucasSeq P Q 2 = P * lucasSeq P Q 1 - Q * lucasSeq P Q 0 := by
        have h : (2 : ℕ) = 0 + 2 := rfl
        rw [h]
        simp [lucasSeq]
      have h1 : lucasSeq P Q 1 = 1 := rfl
      have h0 : lucasSeq P Q 0 = 0 := rfl
      rw [heq, h1, h0]
      push_cast
      linarith
  | succ k ih =>
      have hstep := lucasSeq_strict P Q hP hQ (k + 2) (by omega)
      have hidx : k + 1 + 2 = k + 2 + 1 := rfl
      rw [hidx]
      push_cast
      push_cast at ih
      linarith

theorem workerIter_at_state (base : ℤ → InnerDict) (Key P Q : ℤ) (k : ℕ)
    (pp qq : Option ℤ) :
    workerIter (Function.update base Key (InnerDict.mk (prefList P Q k) false pp qq))
        Key P Q =
      if 1000 ≤ lucasSeq P Q (k + 2) then
        (Function.update base Key
            (InnerDict.mk (prefList P Q (k + 1)) true (some P) (some Q)),
          [(Key, InnerDict.mk (prefList P Q (k + 1)) false pp qq),
            (Key, InnerDict.mk (prefList P Q (k + 1)) true (some P) (some Q))], true)
      else
        (Function.update base Key (InnerDict.mk (prefList P Q (k + 1)) false pp qq),
          [(Key, InnerDict.mk (prefList P Q (k + 1)) false pp qq)], false) := by
  unfold workerIter
  simp only [Function.update_same, Function.update_idem]
  rw [next_prefList, ← prefList_succ]
  rw [pyGetNeg_prefList P Q (k + 1) 1 (by omega) (by omega)]
  have hidx : k + 1 + 2 - 1 = k + 2 := rfl
  rw [hidx]

theorem workerRun_terminates (base : ℤ → InnerDict) (Key P Q : ℤ)
    (_hP : 1 ≤ P) (_hQ : Q ≤ -1) :
    ∀ (fuel k : ℕ) (pp qq : Option ℤ),
      (∃ m : ℕ, k < m ∧ m ≤ k + fuel ∧ 1000 ≤ lucasSeq P Q (m + 1)) →
      ∃ D, workerRun fuel
          (Function.update base Key (InnerDict.mk (prefList P Q k) false pp qq)) Key P Q
            = some D ∧ (D Key).CompFinished = true ∧
          1000 ≤ pyGetNeg (D Key).Sequence 1 := by
  intro fuel
  induction fuel with
  | zero =>
      intro k pp qq hm
      obtain ⟨m, hm1, hm2, _⟩ := hm
      omega
  | succ f ih =>
      intro k pp qq hm
      obtain ⟨m, hm1, hm2, hm3⟩ := hm
      simp only [workerRun, Function.update_same]
      rw [workerIter_at_state]
      by_cases hc : 1000 ≤ lucasSeq P Q (k + 2)
      · rw [if_pos hc]
        refine ⟨Function.update base Key
            (InnerDict.mk (prefList P Q (k + 1)) true (some P) (some Q)), ?_, ?_, ?_⟩
        · simp
        · rw [Function.update_same]
        · rw [Function.update_same]
          show 1000 ≤ pyGetNeg (prefList P Q (k + 1)) 1
          rw [pyGetNeg_prefList P Q (k + 1) 1 (by omega) (by omega)]
          exact hc
      · rw [if_neg hc]
        have hmk : m ≠ k + 1 := by
          intro hcontra
          rw [hcontra] at hm3
          have hidx : k + 1 + 1 = k + 2 := rfl
          rw [hidx] at hm3
          exact hc hm3
        have := ih (k + 1) pp qq ⟨m, by omega, by omega, hm3⟩
        simpa using this

/-- C10: for every `Key ≥ 1`, `1 ≤ P ≤ Key` and `-Key ≤ Q ≤ -1`, `Worker`'s
while-loop terminates: from `[0, 1]` each appended Lucas element
`P*Sequence[-1] - Q*Sequence[-2]` strictly exceeds its predecessor from the
second step on, the sequence grows without bound, and the loop reaches a last
element `≥ 1000`, sets `CompFinished := True` and breaks. -/
theorem worker_loop_terminates (Key P Q : ℤ) (base : ℤ → InnerDict)
    (_hKey : 1 ≤ Key) (hP1 : 1 ≤ P) (_hP2 : P ≤ Key) (_hQ1 : -Key ≤ Q) (hQ2 : Q ≤ -1) :
    (∀ n : ℕ, 2 ≤ n → lucasSeq P Q n < lucasSeq P Q (n + 1)) ∧
      (∀ B : ℤ, ∃ n : ℕ, B ≤ lucasSeq P Q n) ∧
      (∃ (fuel : ℕ) (D : ℤ → InnerDict),
          workerRun fuel
              (Function.update base Key (InnerDict.mk [0, 1] false none none)) Key P Q =
            some D ∧
          (D Key).CompFinished = true ∧ 1000 ≤ pyGetNeg (D Key).Sequence 1) := by
  refine ⟨?_, ?_, ?_⟩
  · intro n hn
    have := lucasSeq_strict P Q hP1 hQ2 n hn
    omega
  · intro B
    refine ⟨B.toNat + 2, ?_⟩
    have hlow := lucasSeq_lower P Q hP1 hQ2 B.toNat
    have hB : B ≤ (B.toNat : ℤ) := Int.self_le_toNat B
    linarith
  · obtain ⟨D, hD, hcf, hlast⟩ := workerRun_terminates base Key P Q hP1 hQ2 1001 0 none none
      ⟨1001, by omega, by omega, by
        have hlow := lucasSeq_lower P Q hP1 hQ2 1000
        have hidx : (1000 : ℕ) + 2 = 1001 + 1 := rfl
        rw [hidx] at hlow
        push_cast at hlow
        linarith⟩
    refine ⟨1001, D, ?_, hcf, hlast⟩
    rw [← prefList_zero P Q]
    exact hD

theorem worker_loop_terminates_witness :
    (∀ n : ℕ, 2 ≤ n → lucasSeq 1 (-1) n < lucasSeq 1 (-1) (n + 1)) ∧
      (∀ B : ℤ, ∃ n : ℕ, B ≤ lucasSeq 1 (-1) n) ∧
      (∃ (fuel : ℕ) (D : ℤ → InnerDict),
          workerRun fuel
              (Function.update (fun _ : ℤ => InnerDict.mk [] false none none) 1
                (InnerDict.mk [0, 1] false none none)) 1 1 (-1) =
            some D ∧
          (D 1).CompFinished = true ∧ 1000 ≤ pyGetNeg (D 1).Sequence 1) :=
  worker_loop_terminates 1 1 (-1) (fun _ => InnerDict.mk [] false none none)
    (by decide) (by decide) (by decide) (by decide) (by decide)

end MpDemo
